import Mathlib

/-!
Verification of the dependency-graph engine of the repository
(`src/dependency_graph.py`), the core component described by the
specification: a DFS graph builder over an external dependency source with
cycle detection and case-insensitive substring filtering, plus the query
operations built on the completed graph.

Modelling conventions:
* A Python `dict` mapping package names to dependency sets is embedded as an
  association list `List (String × List String)` in insertion order; the
  value lists are read as sets (insertion keeps the first occurrence only,
  mirroring `set.add`).
* The dependency source `get_dependencies_func` is a function
  `String → Option (List String)`; `none` models the function raising an
  exception, `some deps` models a successful fetch returning a dict whose
  keys are `deps` in enumeration order.
* The recursive traversal `build_graph_dfs` is embedded with an explicit
  fuel parameter bounding the recursion depth; exhausting the fuel yields
  `none`, so a `some` result is a faithful run of the Python recursion.
  Python's shared mutable `visited` set is threaded through as part of the
  result; `path` is passed by value because the source copies it
  (`path.copy()`) before every recursive descent, making the in-place
  `append`/`pop` pair invisible to the caller.
-/

/-- Python `str.startswith` on character lists: does the second list occur at
the head of the first? Used to embed the substring test `a in b`. -/
def listStartsWith : List Char → List Char → Bool
  | _, [] => true
  | [], _ :: _ => false
  | a :: as, b :: bs => a = b && listStartsWith as bs

/-- Python `needle in haystack` on strings, embedded over character lists:
`needle` occurs contiguously somewhere in `haystack`. -/
def listHasSub : List Char → List Char → Bool
  | [], needle => needle.isEmpty
  | c :: rest, needle => listStartsWith (c :: rest) needle || listHasSub rest needle

/-- Python `needle in haystack` for strings. -/
def strContains (haystack needle : String) : Bool :=
  listHasSub haystack.toList needle.toList

/-- Python `str.lower()` on one character (ASCII range; package names in
this domain are ASCII). -/
def lowerChar (c : Char) : Char :=
  if 65 ≤ c.toNat ∧ c.toNat ≤ 90 then Char.ofNat (c.toNat + 32) else c

/-- Python `str.lower()`. -/
def lowerStr (s : String) : String :=
  String.mk (s.toList.map lowerChar)

/-- The state of `DependencyGraph` (src/dependency_graph.py): the adjacency
mapping `self.graph`, the lowered filter substring `self.filter_substring`
and the recorded cycle list `self.cycles`.  The fields `self.visited` and
`self.recursion_stack` are never read by any method and are omitted. -/
structure DependencyGraph where
  filter_substring : String
  graph : List (String × List String)
  cycles : List (List String)
deriving DecidableEq, Repr

/-- `DependencyGraph.__init__`: the filter substring is lowered when
non-empty, the graph and cycle list start empty. -/
def DependencyGraph.init (filter_substring : String) : DependencyGraph :=
  { filter_substring := if filter_substring = "" then "" else lowerStr filter_substring
    graph := []
    cycles := [] }

/-- `DependencyGraph._should_filter`: an empty filter matches nothing;
otherwise the (already lowered) filter must occur in the lowered name. -/
def DependencyGraph.should_filter (g : DependencyGraph) (package_name : String) : Bool :=
  if g.filter_substring = "" then false
  else strContains (lowerStr package_name) g.filter_substring

/-- Python `set.add` on a list read as a set: append the element unless it is
already present. -/
def setInsert (l : List String) (x : String) : List String :=
  if x ∈ l then l else l ++ [x]

/-- Lookup in the association list embedding of `self.graph` (first matching
key wins, as in a Python dict with unique keys). -/
def lookupKey : List (String × List String) → String → Option (List String)
  | [], _ => none
  | (a, ds) :: rest, k => if a = k then some ds else lookupKey rest k

/-- `self.graph[package].add(dependency)` on a `defaultdict(set)`: update the
entry of `package` if present, otherwise create it holding `dependency`. -/
def insertDep : List (String × List String) → String → String → List (String × List String)
  | [], package, dep => [(package, [dep])]
  | (a, ds) :: rest, package, dep =>
    if a = package then (a, setInsert ds dep) :: rest
    else (a, ds) :: insertDep rest package dep

/-- `DependencyGraph.add_dependency`: skip entirely when either name matches
the filter; otherwise add the edge and ensure the dependency owns a
(possibly empty) entry of its own. -/
def DependencyGraph.add_dependency (g : DependencyGraph) (package dependency : String) :
    DependencyGraph :=
  if g.should_filter package || g.should_filter dependency then g
  else
    let graph1 := insertDep g.graph package dependency
    let graph2 :=
      if (lookupKey graph1 dependency).isSome then graph1
      else graph1 ++ [(dependency, [])]
    { g with graph := graph2 }

/-- The `for dep_name in dependencies.keys()` loop body of
`build_graph_dfs`: for each unfiltered dependency name add the edge and
recurse via `rec` (the recursive call at the current path, supplied by
`buildDfsO`).  A `none` from `rec` (fuel exhaustion of the embedding) aborts
the run. -/
def buildDeps
    (rec : DependencyGraph → String → List String → Option (DependencyGraph × List String))
    (package : String) :
    DependencyGraph → List String → List String → Option (DependencyGraph × List String)
  | g, visited, [] => some (g, visited)
  | g, visited, dep :: rest =>
    if g.should_filter dep then buildDeps rec package g visited rest
    else
      match rec (g.add_dependency package dep) dep visited with
      | none => none
      | some (g2, v2) => buildDeps rec package g2 v2 rest

/-- `DependencyGraph.build_graph_dfs`, fuelled.  The guard order mirrors the
source: filter check, then recursion-path (cycle) check, then global visited
check; on a fresh package it is marked visited, appended to the path, its
dependencies are fetched (`none` = the source raised, swallowed by the
`try/except`), and each unfiltered dependency is added as an edge and
descended into with a copy of the extended path.  `none` is returned only
when the fuel runs out, never by the embedded code. -/
def buildDfsO (f : String → Option (List String)) :
    Nat → DependencyGraph → String → List String → List String →
      Option (DependencyGraph × List String)
  | 0, _, _, _, _ => none
  | fuel + 1, g, package, visited, path =>
    if g.should_filter package then some (g, visited)
    else if package ∈ path then
      some ({ g with
              cycles := g.cycles ++ [path.drop (List.indexOf package path) ++ [package]] },
            visited)
    else if package ∈ visited then some (g, visited)
    else
      match f package with
      | none => some (g, visited ++ [package])
      | some deps =>
        buildDeps (fun g2 p2 v2 => buildDfsO f fuel g2 p2 v2 (path ++ [package]))
          package g (visited ++ [package]) deps

/-- The public entry point `graph.build_graph_dfs(package, f)` with the
default arguments `visited=None, path=None` (fresh empty collections). -/
def DependencyGraph.build_graph_dfs (g : DependencyGraph)
    (f : String → Option (List String)) (fuel : Nat) (package : String) :
    Option (DependencyGraph × List String) :=
  buildDfsO f fuel g package [] []

/-- `DependencyGraph.get_direct_dependencies`: `self.graph.get(package, set())`. -/
def DependencyGraph.get_direct_dependencies (g : DependencyGraph) (package : String) :
    List String :=
  (lookupKey g.graph package).getD []

/-- `DependencyGraph.get_cycles`. -/
def DependencyGraph.get_cycles (g : DependencyGraph) : List (List String) :=
  g.cycles

/-- `DependencyGraph.has_cycles`: `len(self.cycles) > 0`. -/
def DependencyGraph.has_cycles (g : DependencyGraph) : Bool :=
  decide (0 < g.cycles.length)

/-- The key list of an association list. -/
def keysL (l : List (String × List String)) : List String :=
  l.map Prod.fst

/-- The concatenation of all value lists of an association list, read as a
set. -/
def valuesL (l : List (String × List String)) : List String :=
  (l.map Prod.snd).flatten

/-- The keys of `self.graph`. -/
def graphKeys (g : DependencyGraph) : List String :=
  keysL g.graph

/-- The union of the dependency sets of `self.graph`, as a list read as a
set. -/
def graphValues (g : DependencyGraph) : List String :=
  valuesL g.graph

/-- `DependencyGraph.get_all_packages`: all keys together with all members of
all dependency sets, as a list read as a set. -/
def DependencyGraph.get_all_packages (g : DependencyGraph) : List String :=
  graphKeys g ++ graphValues g

/-- The `for dep in self.graph.get(pkg, set())` loop of the inner
`collect_deps` closure of `get_all_dependencies`: each unfiltered dependency
is added to the accumulator `all_deps` and descended into via `rec`.  The
state pairs the local `visited` set with `all_deps`. -/
def collectList (g : DependencyGraph)
    (rec : String → List String × List String → List String × List String) :
    List String × List String → List String → List String × List String
  | s, [] => s
  | (v, a), dep :: rest =>
    if g.should_filter dep then collectList g rec (v, a) rest
    else collectList g rec (rec dep (v, setInsert a dep)) rest

/-- The inner closure `collect_deps` of `get_all_dependencies`, fuelled: skip
packages already locally visited or filtered, otherwise mark visited and walk
the package's dependency set. -/
def collect_deps (g : DependencyGraph) :
    Nat → String → List String × List String → List String × List String
  | 0, _, s => s
  | fuel + 1, pkg, (v, a) =>
    if pkg ∈ v || g.should_filter pkg then (v, a)
    else
      collectList g (fun p s => collect_deps g fuel p s)
        (v ++ [pkg], a) (g.get_direct_dependencies pkg)

/-- `DependencyGraph.get_all_dependencies`: empty when the package is not a
key of the graph, otherwise the `all_deps` accumulator of a completed
`collect_deps` walk from the package with fresh local `visited`/`all_deps`
sets.  The fuel `|allPackages| + 1` exceeds the number of distinct nodes, so
the walk never runs out (each nesting level visits a fresh node). -/
def DependencyGraph.get_all_dependencies (g : DependencyGraph) (package : String) :
    List String :=
  if (lookupKey g.graph package).isSome then
    (collect_deps g (g.get_all_packages.length + 1) package ([], [])).2
  else []

/-- Modelled from the spec: `get_reverse_dependencies` is called by the
application shell (`src/main.py`, line 148) but is not defined in
`src/dependency_graph.py`; specification §4.3 defines `reverseDependencies
(package)` as the set of packages that have `package` in their direct
dependency set, computed by scanning all graph entries. -/
def DependencyGraph.get_reverse_dependencies (g : DependencyGraph) (package : String) :
    List String :=
  (g.graph.filter (fun e => decide (package ∈ e.2))).map Prod.fst

/-- State-passing embedding of the method call
`graph.get_all_dependencies(package)`: the method reads `self.graph` and
`self.filter_substring` but assigns no attribute of `self` (its `visited` and
`all_deps` sets are local to the call), so its state transition is the
identity. -/
def DependencyGraph.get_all_dependencies_run (g : DependencyGraph) (package : String) :
    List String × DependencyGraph :=
  (g.get_all_dependencies package, g)

/-! ### Basic lemmas on the primitive operations -/

theorem mem_setInsert {l : List String} {x y : String} :
    y ∈ setInsert l x ↔ y ∈ l ∨ y = x := by
  unfold setInsert
  split
  · rename_i hx
    constructor
    · exact fun h => Or.inl h
    · rintro (h | rfl) <;> [exact h; exact hx]
  · simp [List.mem_append]

theorem setInsert_mem_self {l : List String} {x : String} : x ∈ setInsert l x :=
  mem_setInsert.mpr (Or.inr rfl)

theorem setInsert_subset {l : List String} {x y : String} (h : y ∈ l) :
    y ∈ setInsert l x :=
  mem_setInsert.mpr (Or.inl h)

theorem keysL_nil : keysL [] = [] := rfl

theorem keysL_cons {a : String} {ds : List String} {rest : List (String × List String)} :
    keysL ((a, ds) :: rest) = a :: keysL rest := rfl

theorem valuesL_nil : valuesL [] = [] := rfl

theorem valuesL_cons {a : String} {ds : List String} {rest : List (String × List String)} :
    valuesL ((a, ds) :: rest) = ds ++ valuesL rest := rfl

theorem keysL_append {l₁ l₂ : List (String × List String)} :
    keysL (l₁ ++ l₂) = keysL l₁ ++ keysL l₂ := by
  simp [keysL]

theorem valuesL_append {l₁ l₂ : List (String × List String)} :
    valuesL (l₁ ++ l₂) = valuesL l₁ ++ valuesL l₂ := by
  simp [valuesL]

theorem lookupKey_isSome_iff {l : List (String × List String)} {k : String} :
    (lookupKey l k).isSome ↔ k ∈ keysL l := by
  induction l with
  | nil => simp [lookupKey, keysL]
  | cons e rest ih =>
    obtain ⟨a, ds⟩ := e
    by_cases hak : a = k
    · subst hak; simp [lookupKey, keysL_cons]
    · simp [lookupKey, hak, ih, keysL_cons, Ne.symm hak]

theorem lookupKey_mem {l : List (String × List String)} {k : String} {ds : List String}
    (h : lookupKey l k = some ds) : (k, ds) ∈ l := by
  induction l with
  | nil => simp [lookupKey] at h
  | cons e rest ih =>
    obtain ⟨a, es⟩ := e
    by_cases hak : a = k
    · subst hak
      simp only [lookupKey, if_true, eq_self_iff_true, Option.some.injEq] at h
      subst h
      exact List.mem_cons_self _ _
    · simp only [lookupKey, if_neg hak] at h
      exact List.mem_cons_of_mem _ (ih h)

theorem mem_lookupKey_of_nodup {l : List (String × List String)} {k : String}
    {ds : List String} (hnd : (keysL l).Nodup) (h : (k, ds) ∈ l) :
    lookupKey l k = some ds := by
  induction l with
  | nil => simp at h
  | cons e rest ih =>
    obtain ⟨a, es⟩ := e
    rw [keysL_cons, List.nodup_cons] at hnd
    rcases List.mem_cons.mp h with heq | hmem
    · injection heq with h1 h2
      subst h1; subst h2
      simp [lookupKey]
    · have hak : a ≠ k := by
        rintro rfl
        exact hnd.1 (List.mem_map.mpr ⟨(a, ds), hmem, rfl⟩)
      simpa [lookupKey, hak] using ih hnd.2 hmem

theorem mem_valuesL_of_lookup {l : List (String × List String)} {k d : String}
    {ds : List String} (h : lookupKey l k = some ds) (hd : d ∈ ds) : d ∈ valuesL l := by
  induction l with
  | nil => simp [lookupKey] at h
  | cons e rest ih =>
    obtain ⟨a, es⟩ := e
    rw [valuesL_cons, List.mem_append]
    by_cases hak : a = k
    · subst hak
      simp only [lookupKey, if_true, eq_self_iff_true, Option.some.injEq] at h
      subst h
      exact Or.inl hd
    · simp only [lookupKey, if_neg hak] at h
      exact Or.inr (ih h)

theorem insertDep_keys {l : List (String × List String)} {p d x : String} :
    x ∈ keysL (insertDep l p d) ↔ x ∈ keysL l ∨ x = p := by
  induction l with
  | nil => simp [insertDep, keysL]
  | cons e rest ih =>
    obtain ⟨a, ds⟩ := e
    by_cases hap : a = p
    · subst hap
      simp only [insertDep, if_true, eq_self_iff_true, keysL_cons, List.mem_cons]
      tauto
    · simp only [insertDep, if_neg hap, keysL_cons, List.mem_cons, ih]
      tauto

theorem insertDep_values {l : List (String × List String)} {p d y : String}
    (h : y ∈ valuesL (insertDep l p d)) : y ∈ valuesL l ∨ y = d := by
  induction l with
  | nil =>
    simp only [insertDep, valuesL_cons, valuesL_nil, List.append_nil, List.mem_singleton] at h
    exact Or.inr h
  | cons e rest ih =>
    obtain ⟨a, ds⟩ := e
    rw [valuesL_cons]
    by_cases hap : a = p
    · subst hap
      rw [insertDep, if_pos rfl, valuesL_cons, List.mem_append] at h
      rcases h with h | h
      · rcases mem_setInsert.mp h with h | rfl
        · exact Or.inl (List.mem_append.mpr (Or.inl h))
        · exact Or.inr rfl
      · exact Or.inl (List.mem_append.mpr (Or.inr h))
    · rw [insertDep, if_neg hap, valuesL_cons, List.mem_append] at h
      rcases h with h | h
      · exact Or.inl (List.mem_append.mpr (Or.inl h))
      · rcases ih h with h | rfl
        · exact Or.inl (List.mem_append.mpr (Or.inr h))
        · exact Or.inr rfl

theorem insertDep_values_mono {l : List (String × List String)} {p d y : String}
    (h : y ∈ valuesL l) : y ∈ valuesL (insertDep l p d) := by
  induction l with
  | nil => simp [valuesL] at h
  | cons e rest ih =>
    obtain ⟨a, ds⟩ := e
    rw [valuesL_cons, List.mem_append] at h
    by_cases hap : a = p
    · subst hap
      rw [insertDep, if_pos rfl, valuesL_cons, List.mem_append]
      rcases h with h | h
      · exact Or.inl (setInsert_subset h)
      · exact Or.inr h
    · rw [insertDep, if_neg hap, valuesL_cons, List.mem_append]
      rcases h with h | h
      · exact Or.inl h
      · exact Or.inr (ih h)

theorem insertDep_mem_values {l : List (String × List String)} {p d : String} :
    d ∈ valuesL (insertDep l p d) := by
  induction l with
  | nil => simp [insertDep, valuesL]
  | cons e rest ih =>
    obtain ⟨a, ds⟩ := e
    by_cases hap : a = p
    · subst hap
      rw [insertDep, if_pos rfl, valuesL_cons, List.mem_append]
      exact Or.inl setInsert_mem_self
    · rw [insertDep, if_neg hap, valuesL_cons, List.mem_append]
      exact Or.inr ih

/-! ### Lemmas about `add_dependency` -/

theorem add_dependency_filter (g : DependencyGraph) (p d : String) :
    (g.add_dependency p d).filter_substring = g.filter_substring := by
  unfold DependencyGraph.add_dependency
  split <;> rfl

theorem add_dependency_cycles (g : DependencyGraph) (p d : String) :
    (g.add_dependency p d).cycles = g.cycles := by
  unfold DependencyGraph.add_dependency
  split <;> rfl

theorem should_filter_congr {g₁ g₂ : DependencyGraph}
    (h : g₁.filter_substring = g₂.filter_substring) (x : String) :
    g₁.should_filter x = g₂.should_filter x := by
  simp [DependencyGraph.should_filter, h]

theorem add_dependency_should_filter (g : DependencyGraph) (p d x : String) :
    (g.add_dependency p d).should_filter x = g.should_filter x :=
  should_filter_congr (add_dependency_filter g p d) x

theorem add_dependency_noop {g : DependencyGraph} {p d : String}
    (h : g.should_filter p = true ∨ g.should_filter d = true) :
    g.add_dependency p d = g := by
  unfold DependencyGraph.add_dependency
  rcases h with h | h <;> simp [h]

theorem add_dependency_graph_eq {g : DependencyGraph} {p d : String}
    (hp : g.should_filter p = false) (hd : g.should_filter d = false) :
    (g.add_dependency p d).graph =
      if (lookupKey (insertDep g.graph p d) d).isSome then insertDep g.graph p d
      else insertDep g.graph p d ++ [(d, [])] := by
  simp [DependencyGraph.add_dependency, hp, hd]

theorem mem_keys_add_dependency {g : DependencyGraph} {p d x : String} :
    x ∈ graphKeys (g.add_dependency p d) ↔
      x ∈ graphKeys g ∨
        (g.should_filter p = false ∧ g.should_filter d = false ∧ (x = p ∨ x = d)) := by
  by_cases hp : g.should_filter p = true
  · rw [add_dependency_noop (Or.inl hp)]
    simp [hp]
  · by_cases hd : g.should_filter d = true
    · rw [add_dependency_noop (Or.inr hd)]
      simp [hd]
    · rw [Bool.not_eq_true] at hp hd
      rw [graphKeys, add_dependency_graph_eq hp hd]
      by_cases hk : (lookupKey (insertDep g.graph p d) d).isSome
      · rw [if_pos hk]
        have hdk : d ∈ keysL (insertDep g.graph p d) := lookupKey_isSome_iff.mp hk
        constructor
        · intro h
          rcases insertDep_keys.mp h with h | rfl
          · exact Or.inl h
          · exact Or.inr ⟨hp, hd, Or.inl rfl⟩
        · rintro (h | ⟨-, -, rfl | rfl⟩)
          · exact insertDep_keys.mpr (Or.inl h)
          · exact insertDep_keys.mpr (Or.inr rfl)
          · exact hdk
      · rw [if_neg hk, keysL_append]
        constructor
        · intro h
          rcases List.mem_append.mp h with h | h
          · rcases insertDep_keys.mp h with h | rfl
            · exact Or.inl h
            · exact Or.inr ⟨hp, hd, Or.inl rfl⟩
          · rw [show keysL [(d, [])] = [d] from rfl, List.mem_singleton] at h
            exact Or.inr ⟨hp, hd, Or.inr h⟩
        · rintro (h | ⟨-, -, rfl | rfl⟩)
          · exact List.mem_append.mpr (Or.inl (insertDep_keys.mpr (Or.inl h)))
          · exact List.mem_append.mpr (Or.inl (insertDep_keys.mpr (Or.inr rfl)))
          · exact List.mem_append.mpr (Or.inr (by simp [keysL]))

theorem mem_values_add_dependency {g : DependencyGraph} {p d x : String} :
    x ∈ graphValues (g.add_dependency p d) ↔
      x ∈ graphValues g ∨
        (g.should_filter p = false ∧ g.should_filter d = false ∧ x = d) := by
  by_cases hp : g.should_filter p = true
  · rw [add_dependency_noop (Or.inl hp)]
    simp [hp]
  · by_cases hd : g.should_filter d = true
    · rw [add_dependency_noop (Or.inr hd)]
      simp [hd]
    · rw [Bool.not_eq_true] at hp hd
      rw [graphValues, add_dependency_graph_eq hp hd]
      have base : ∀ y, y ∈ valuesL (insertDep g.graph p d) ↔ y ∈ valuesL g.graph ∨ y = d := by
        intro y
        constructor
        · exact insertDep_values
        · rintro (h | rfl)
          · exact insertDep_values_mono h
          · exact insertDep_mem_values
      by_cases hk : (lookupKey (insertDep g.graph p d) d).isSome
      · rw [if_pos hk]
        rw [base x]
        constructor
        · rintro (h | rfl)
          · exact Or.inl h
          · exact Or.inr ⟨hp, hd, rfl⟩
        · rintro (h | ⟨-, -, rfl⟩)
          · exact Or.inl h
          · exact Or.inr rfl
      · rw [if_neg hk, valuesL_append]
        rw [show valuesL [(d, [])] = [] from rfl, List.append_nil, base x]
        constructor
        · rintro (h | rfl)
          · exact Or.inl h
          · exact Or.inr ⟨hp, hd, rfl⟩
        · rintro (h | ⟨-, -, rfl⟩)
          · exact Or.inl h
          · exact Or.inr rfl

theorem mem_all_packages {g : DependencyGraph} {x : String} :
    x ∈ g.get_all_packages ↔ x ∈ graphKeys g ∨ x ∈ graphValues g := by
  simp [DependencyGraph.get_all_packages, List.mem_append]

theorem mem_all_packages_add_dependency {g : DependencyGraph} {p d x : String} :
    x ∈ (g.add_dependency p d).get_all_packages ↔
      x ∈ g.get_all_packages ∨
        (g.should_filter p = false ∧ g.should_filter d = false ∧ (x = p ∨ x = d)) := by
  rw [mem_all_packages, mem_all_packages, mem_keys_add_dependency, mem_values_add_dependency]
  constructor
  · rintro (h | h)
    · tauto
    · rcases h with h | ⟨h1, h2, rfl⟩
      · tauto
      · exact Or.inr ⟨h1, h2, Or.inr rfl⟩
  · rintro (h | ⟨h1, h2, h3 | h3⟩)
    · tauto
    · exact Or.inl (Or.inr ⟨h1, h2, Or.inl h3⟩)
    · subst h3; exact Or.inr (Or.inr ⟨h1, h2, rfl⟩)

theorem keys_add_dependency_self {g : DependencyGraph} {p d : String}
    (hp : g.should_filter p = false) (hd : g.should_filter d = false) :
    p ∈ graphKeys (g.add_dependency p d) :=
  mem_keys_add_dependency.mpr (Or.inr ⟨hp, hd, Or.inl rfl⟩)

theorem values_add_dependency_self {g : DependencyGraph} {p d : String}
    (hp : g.should_filter p = false) (hd : g.should_filter d = false) :
    d ∈ graphValues (g.add_dependency p d) :=
  mem_values_add_dependency.mpr (Or.inr ⟨hp, hd, rfl⟩)

/-- The no-dangling-nodes invariant: every package appearing in some
dependency set is itself a key of the graph mapping. -/
def DanglingFree (g : DependencyGraph) : Prop :=
  ∀ d ∈ graphValues g, d ∈ graphKeys g

theorem add_dependency_danglingFree {g : DependencyGraph} {p d : String}
    (h : DanglingFree g) : DanglingFree (g.add_dependency p d) := by
  intro y hy
  rcases mem_values_add_dependency.mp hy with hv | ⟨hp, hd, rfl⟩
  · exact mem_keys_add_dependency.mpr (Or.inl (h y hv))
  · exact mem_keys_add_dependency.mpr (Or.inr ⟨hp, hd, Or.inr rfl⟩)

/-! ### The master postcondition of the traversal

`BuildPost f g v g' v'` collects everything a single `build_graph_dfs` call
guarantees about its state transition `(g, visited) ↝ (g', visited')`: the
filter is untouched, the visited set only grows (by appending), the graph
only grows, newly appearing package names and newly visited packages are
unfiltered, the no-dangling invariant is preserved, and every package
freshly visited (hence fetched) had each unfiltered name returned by its
fetch recorded in the graph, itself becoming a key. -/
def BuildPost (f : String → Option (List String)) (g : DependencyGraph) (v : List String)
    (g' : DependencyGraph) (v' : List String) : Prop :=
  g'.filter_substring = g.filter_substring ∧
  (∃ w, v' = v ++ w) ∧
  (∀ x ∈ g.get_all_packages, x ∈ g'.get_all_packages) ∧
  (∀ x ∈ graphKeys g, x ∈ graphKeys g') ∧
  (∀ x ∈ g'.get_all_packages, x ∈ g.get_all_packages ∨ g.should_filter x = false) ∧
  (∀ x ∈ v', x ∈ v ∨ g.should_filter x = false) ∧
  (DanglingFree g → DanglingFree g') ∧
  (∀ q ∈ v', q ∉ v → ∀ deps, f q = some deps → ∀ d ∈ deps,
      g.should_filter d = false → d ∈ g'.get_all_packages ∧ q ∈ graphKeys g')

theorem buildPost_of_graph_eq (f : String → Option (List String))
    {g g' : DependencyGraph} {v : List String}
    (h1 : g'.graph = g.graph) (h2 : g'.filter_substring = g.filter_substring) :
    BuildPost f g v g' v := by
  have hP : g'.get_all_packages = g.get_all_packages := by
    simp [DependencyGraph.get_all_packages, graphKeys, graphValues, h1]
  have hK : graphKeys g' = graphKeys g := by simp [graphKeys, h1]
  have hV : graphValues g' = graphValues g := by simp [graphValues, h1]
  refine ⟨h2, ⟨[], (List.append_nil v).symm⟩, ?_, ?_, ?_, ?_, ?_, ?_⟩
  · rw [hP]; exact fun x h => h
  · rw [hK]; exact fun x h => h
  · rw [hP]; exact fun x h => Or.inl h
  · exact fun x h => Or.inl h
  · intro hd
    unfold DanglingFree
    rw [hK, hV]
    exact hd
  · intro q hq hnq
    exact absurd hq hnq

theorem buildPost_refl (f : String → Option (List String)) (g : DependencyGraph)
    (v : List String) : BuildPost f g v g v :=
  buildPost_of_graph_eq f rfl rfl

theorem buildPost_trans {f : String → Option (List String)}
    {g g' g'' : DependencyGraph} {v v' v'' : List String}
    (A : BuildPost f g v g' v') (B : BuildPost f g' v' g'' v'') :
    BuildPost f g v g'' v'' := by
  obtain ⟨Af, ⟨w1, Av⟩, Am, Ak, An, Anv, Ad, Aq⟩ := A
  obtain ⟨Bf, ⟨w2, Bv⟩, Bm, Bk, Bn, Bnv, Bd, Bq⟩ := B
  have hfil : ∀ x, g'.should_filter x = g.should_filter x :=
    fun x => should_filter_congr Af x
  refine ⟨Bf.trans Af, ⟨w1 ++ w2, by rw [Bv, Av, List.append_assoc]⟩, ?_, ?_, ?_, ?_, ?_, ?_⟩
  · exact fun x h => Bm x (Am x h)
  · exact fun x h => Bk x (Ak x h)
  · intro x h
    rcases Bn x h with h | h
    · exact An x h
    · exact Or.inr ((hfil x).symm.trans h)
  · intro x h
    rcases Bnv x h with h | h
    · exact Anv x h
    · exact Or.inr ((hfil x).symm.trans h)
  · exact fun h => Bd (Ad h)
  · intro q hq hnq deps hdeps d hd hdfil
    by_cases hq' : q ∈ v'
    · obtain ⟨h1, h2⟩ := Aq q hq' hnq deps hdeps d hd hdfil
      exact ⟨Bm d h1, Bk q h2⟩
    · exact Bq q hq hq' deps hdeps d hd ((hfil d).trans hdfil)

theorem buildPost_add_dependency (f : String → Option (List String))
    (g : DependencyGraph) (v : List String) (p d : String) :
    BuildPost f g v (g.add_dependency p d) v := by
  refine ⟨add_dependency_filter g p d, ⟨[], (List.append_nil v).symm⟩, ?_, ?_, ?_, ?_, ?_, ?_⟩
  · exact fun x h => mem_all_packages_add_dependency.mpr (Or.inl h)
  · exact fun x h => mem_keys_add_dependency.mpr (Or.inl h)
  · intro x h
    rcases mem_all_packages_add_dependency.mp h with h | ⟨h1, h2, h3 | h3⟩
    · exact Or.inl h
    · subst h3; exact Or.inr h1
    · subst h3; exact Or.inr h2
  · exact fun x h => Or.inl h
  · exact add_dependency_danglingFree
  · intro q hq hnq
    exact absurd hq hnq

theorem buildDeps_post {f : String → Option (List String)}
    {rec : DependencyGraph → String → List String → Option (DependencyGraph × List String)}
    (hrec : ∀ g p v g' v', rec g p v = some (g', v') → BuildPost f g v g' v')
    (package : String) :
    ∀ l g v g' v', g.should_filter package = false →
      buildDeps rec package g v l = some (g', v') →
      BuildPost f g v g' v' ∧
        ∀ d ∈ l, g.should_filter d = false →
          d ∈ g'.get_all_packages ∧ package ∈ graphKeys g' := by
  intro l
  induction l with
  | nil =>
    intro g v g' v' hpkg h
    simp only [buildDeps, Option.some.injEq] at h
    injection h with h1 h2
    subst h1; subst h2
    exact ⟨buildPost_refl f g v, by simp⟩
  | cons dep rest ih =>
    intro g v g' v' hpkg h
    simp only [buildDeps] at h
    by_cases hdep : g.should_filter dep = true
    · rw [if_pos hdep] at h
      obtain ⟨post, hrest⟩ := ih g v g' v' hpkg h
      refine ⟨post, ?_⟩
      intro d hd hdfil
      rcases List.mem_cons.mp hd with rfl | hd
      · rw [hdep] at hdfil; cases hdfil
      · exact hrest d hd hdfil
    · rw [Bool.not_eq_true] at hdep
      rw [if_neg (by simp [hdep])] at h
      rcases hr : rec (g.add_dependency package dep) dep v with _ | gv2
      · rw [hr] at h; cases h
      · obtain ⟨g2, v2⟩ := gv2
        rw [hr] at h
        have A : BuildPost f g v (g.add_dependency package dep) v :=
          buildPost_add_dependency f g v package dep
        have B : BuildPost f (g.add_dependency package dep) v g2 v2 :=
          hrec _ _ _ _ _ hr
        have hfil2 : ∀ x, g2.should_filter x = g.should_filter x := fun x =>
          (should_filter_congr B.1 x).trans
            (should_filter_congr (add_dependency_filter g package dep) x)
        obtain ⟨C, hrest⟩ := ih g2 v2 g' v' ((hfil2 package).trans hpkg) h
        have AB : BuildPost f g v g2 v2 := buildPost_trans A B
        have post : BuildPost f g v g' v' := buildPost_trans AB C
        refine ⟨post, ?_⟩
        intro d hd hdfil
        rcases List.mem_cons.mp hd with rfl | hd
        · constructor
          · have h1 : d ∈ (g.add_dependency package d).get_all_packages :=
              mem_all_packages.mpr (Or.inr (values_add_dependency_self hpkg hdep))
            exact C.2.2.1 d (B.2.2.1 d h1)
          · have h2 : package ∈ graphKeys (g.add_dependency package d) :=
              keys_add_dependency_self hpkg hdep
            exact C.2.2.2.1 package (B.2.2.2.1 package h2)
        · exact hrest d hd ((hfil2 d).trans hdfil)

theorem buildDfsO_post (f : String → Option (List String)) :
    ∀ fuel g package v path g' v',
      buildDfsO f fuel g package v path = some (g', v') → BuildPost f g v g' v' := by
  intro fuel
  induction fuel with
  | zero =>
    intro g package v path g' v' h
    simp [buildDfsO] at h
  | succ fuel ih =>
    intro g package v path g' v' h
    simp only [buildDfsO] at h
    by_cases hfil : g.should_filter package = true
    · rw [if_pos hfil] at h
      injection h with h1
      injection h1 with hg hv
      subst hg; subst hv
      exact buildPost_refl f _ _
    · rw [Bool.not_eq_true] at hfil
      rw [if_neg (by simp [hfil])] at h
      by_cases hpath : package ∈ path
      · rw [if_pos hpath] at h
        injection h with h1
        injection h1 with hg hv
        subst hg; subst hv
        exact buildPost_of_graph_eq f rfl rfl
      · rw [if_neg hpath] at h
        by_cases hvis : package ∈ v
        · rw [if_pos hvis] at h
          injection h with h1
          injection h1 with hg hv
          subst hg; subst hv
          exact buildPost_refl f _ _
        · rw [if_neg hvis] at h
          rcases hf : f package with _ | deps
          · rw [hf] at h
            injection h with h1
            injection h1 with hg hv
            subst hg
            refine ⟨rfl, ⟨[package], hv.symm⟩, fun x hx => hx, fun x hx => hx, ?_, ?_, id, ?_⟩
            · exact fun x hx => Or.inl hx
            · intro x hx
              rw [← hv] at hx
              rcases List.mem_append.mp hx with hx | hx
              · exact Or.inl hx
              · rw [List.mem_singleton] at hx
                subst hx
                exact Or.inr hfil
            · intro q hq hnq deps hdeps
              rw [← hv] at hq
              rcases List.mem_append.mp hq with hq | hq
              · exact absurd hq hnq
              · rw [List.mem_singleton] at hq
                subst hq
                rw [hf] at hdeps
                cases hdeps
          · rw [hf] at h
            obtain ⟨post, hdeps⟩ :=
              buildDeps_post (fun g2 p2 v2 g3 v3 hr => ih g2 p2 v2 (path ++ [package]) g3 v3 hr)
                package deps g (v ++ [package]) g' v' hfil h
            obtain ⟨Pf, ⟨w, Pv⟩, Pm, Pk, Pn, Pnv, Pd, Pq⟩ := post
            refine ⟨Pf, ⟨package :: w, by rw [Pv, List.append_assoc]; rfl⟩,
              Pm, Pk, Pn, ?_, Pd, ?_⟩
            · intro x hx
              rcases Pnv x hx with hx | hx
              · rcases List.mem_append.mp hx with hx | hx
                · exact Or.inl hx
                · rw [List.mem_singleton] at hx
                  subst hx
                  exact Or.inr hfil
              · exact Or.inr hx
            · intro q hq hnq deps2 hdeps2 d hd hdfil
              by_cases hqp : q = package
              · subst hqp
                rw [hf] at hdeps2
                injection hdeps2 with hde
                subst hde
                exact hdeps d hd hdfil
              · refine Pq q hq ?_ deps2 hdeps2 d hd hdfil
                intro hq2
                rcases List.mem_append.mp hq2 with hq2 | hq2
                · exact hnq hq2
                · rw [List.mem_singleton] at hq2
                  exact hqp hq2

/-! ### Termination of the traversal -/

theorem sdiff_card_le_of_append {U v : List String} (w : List String) :
    ((U.toFinset \ (v ++ w).toFinset).card ≤ (U.toFinset \ v.toFinset).card) := by
  apply Finset.card_le_card
  apply Finset.sdiff_subset_sdiff (le_refl _)
  intro x hx
  rw [List.mem_toFinset] at hx ⊢
  exact List.mem_append.mpr (Or.inl hx)

theorem sdiff_card_lt_of_cons {U v : List String} {package : String}
    (hU : package ∈ U) (hv : package ∉ v) :
    (U.toFinset \ (v ++ [package]).toFinset).card < (U.toFinset \ v.toFinset).card := by
  apply Finset.card_lt_card
  constructor
  · apply Finset.sdiff_subset_sdiff (le_refl _)
    intro x hx
    rw [List.mem_toFinset] at hx ⊢
    exact List.mem_append.mpr (Or.inl hx)
  · intro hsub
    have h1 : package ∈ U.toFinset \ v.toFinset := by
      rw [Finset.mem_sdiff, List.mem_toFinset, List.mem_toFinset]
      exact ⟨hU, hv⟩
    have h2 := hsub h1
    rw [Finset.mem_sdiff, List.mem_toFinset, List.mem_toFinset] at h2
    exact h2.2 (List.mem_append.mpr (Or.inr (List.mem_singleton.mpr rfl)))

theorem buildDeps_isSome {U : List String} {fuel : Nat}
    {rec : DependencyGraph → String → List String → Option (DependencyGraph × List String)}
    (hrecPost : ∀ g p v g' v', rec g p v = some (g', v') → ∃ w, v' = v ++ w)
    (hrecSome : ∀ g p v, p ∈ U → (U.toFinset \ v.toFinset).card < fuel → (rec g p v).isSome)
    (package : String) :
    ∀ l g v, (∀ d ∈ l, d ∈ U) → (U.toFinset \ v.toFinset).card < fuel →
      (buildDeps rec package g v l).isSome := by
  intro l
  induction l with
  | nil =>
    intro g v _ _
    simp [buildDeps]
  | cons dep rest ih =>
    intro g v hl hcard
    simp only [buildDeps]
    by_cases hdep : g.should_filter dep = true
    · rw [if_pos hdep]
      exact ih g v (fun d hd => hl d (List.mem_cons_of_mem _ hd)) hcard
    · rw [Bool.not_eq_true] at hdep
      rw [if_neg (by simp [hdep])]
      have hsome := hrecSome (g.add_dependency package dep) dep v
        (hl dep (List.mem_cons_self _ _)) hcard
      rcases hr : rec (g.add_dependency package dep) dep v with _ | gv2
      · rw [hr] at hsome; cases hsome
      · obtain ⟨g2, v2⟩ := gv2
        obtain ⟨w, rfl⟩ := hrecPost _ _ _ _ _ hr
        exact ih g2 (v ++ w) (fun d hd => hl d (List.mem_cons_of_mem _ hd))
          (Nat.lt_of_le_of_lt (sdiff_card_le_of_append w) hcard)

theorem buildDfsO_isSome {f : String → Option (List String)} {U : List String}
    (hcl : ∀ p ∈ U, ∀ deps, f p = some deps → ∀ d ∈ deps, d ∈ U) :
    ∀ fuel package g v path, package ∈ U →
      (U.toFinset \ v.toFinset).card < fuel →
      (buildDfsO f fuel g package v path).isSome := by
  intro fuel
  induction fuel with
  | zero =>
    intro package g v path _ hcard
    cases hcard
  | succ fuel ih =>
    intro package g v path hU hcard
    simp only [buildDfsO]
    by_cases hfil : g.should_filter package = true
    · rw [if_pos hfil]; rfl
    · rw [Bool.not_eq_true] at hfil
      rw [if_neg (by simp [hfil])]
      by_cases hpath : package ∈ path
      · rw [if_pos hpath]; rfl
      · rw [if_neg hpath]
        by_cases hvis : package ∈ v
        · rw [if_pos hvis]; rfl
        · rw [if_neg hvis]
          rcases hf : f package with _ | deps
          · rfl
          · have hcard1 : (U.toFinset \ (v ++ [package]).toFinset).card < fuel :=
              Nat.lt_of_lt_of_le (sdiff_card_lt_of_cons hU hvis) (Nat.lt_succ_iff.mp hcard)
            exact buildDeps_isSome
              (fun g2 p2 v2 g3 v3 hr => (buildDfsO_post f fuel g2 p2 v2 _ g3 v3 hr).2.1)
              (fun g2 p2 v2 hp2 hc2 => ih p2 g2 v2 (path ++ [package]) hp2 hc2)
              package deps g (v ++ [package])
              (fun d hd => hcl package hU deps hf d hd) hcard1

/-! ### Fetch failure is equivalent to an empty dependency set -/

theorem buildDeps_congr
    {rec₁ rec₂ : DependencyGraph → String → List String → Option (DependencyGraph × List String)}
    (h : ∀ g p v, rec₁ g p v = rec₂ g p v) (package : String) :
    ∀ l g v, buildDeps rec₁ package g v l = buildDeps rec₂ package g v l := by
  intro l
  induction l with
  | nil => intro g v; rfl
  | cons dep rest ih =>
    intro g v
    simp only [buildDeps]
    by_cases hdep : g.should_filter dep = true
    · rw [if_pos hdep, if_pos hdep]
      exact ih g v
    · have hdepP : ¬(g.should_filter dep = true) := by simp [hdep]
      rw [if_neg hdepP, if_neg hdepP, h]
      rcases rec₂ (g.add_dependency package dep) dep v with _ | ⟨g2, v2⟩
      · rfl
      · exact ih g2 v2

theorem buildDfsO_fail_eq (f : String → Option (List String)) (b : String)
    (hb : f b = none) :
    ∀ fuel g package v path,
      buildDfsO f fuel g package v path =
        buildDfsO (fun q => if q = b then some [] else f q) fuel g package v path := by
  intro fuel
  induction fuel with
  | zero => intro g package v path; rfl
  | succ fuel ih =>
    intro g package v path
    simp only [buildDfsO]
    by_cases hfil : g.should_filter package = true
    · rw [if_pos hfil, if_pos hfil]
    · have hfilP : ¬(g.should_filter package = true) := hfil
      rw [if_neg hfilP, if_neg hfilP]
      by_cases hpath : package ∈ path
      · rw [if_pos hpath, if_pos hpath]
      · rw [if_neg hpath, if_neg hpath]
        by_cases hvis : package ∈ v
        · rw [if_pos hvis, if_pos hvis]
        · rw [if_neg hvis, if_neg hvis]
          by_cases hqb : package = b
          · subst hqb
            have hq : (if package = package then some ([] : List String) else f package) =
                some [] := if_pos rfl
            rw [hq, hb]
            rfl
          · have hq : (if package = b then some ([] : List String) else f package) =
                f package := if_neg hqb
            rw [hq]
            rcases hf : f package with _ | deps
            · rfl
            · exact buildDeps_congr (fun g2 p2 v2 => ih g2 p2 v2 (path ++ [package])) package
                deps g (v ++ [package])

/-! ### Completeness of the `get_all_dependencies` walk -/

/-- The obligation recorded for a package the `collect_deps` walk has
visited: every unfiltered member of its direct dependency set has been
collected and visited. -/
def CollectOb (g : DependencyGraph) (p : String) (V A : List String) : Prop :=
  ∀ d ∈ g.get_direct_dependencies p, g.should_filter d = false → d ∈ A ∧ d ∈ V

theorem collectOb_mono {g : DependencyGraph} {p : String} {V A V' A' : List String}
    (hV : ∀ x ∈ V, x ∈ V') (hA : ∀ x ∈ A, x ∈ A') (h : CollectOb g p V A) :
    CollectOb g p V' A' := fun d hd hfil =>
  ⟨hA d (h d hd hfil).1, hV d (h d hd hfil).2⟩

theorem setInsert_extends (l : List String) (x : String) :
    ∃ u, setInsert l x = l ++ u := by
  unfold setInsert
  split
  · exact ⟨[], (List.append_nil l).symm⟩
  · exact ⟨[x], rfl⟩

theorem direct_dependencies_of_not_mem {g : DependencyGraph} {pkg : String}
    (h : pkg ∉ g.get_all_packages) : g.get_direct_dependencies pkg = [] := by
  rcases hlk : lookupKey g.graph pkg with _ | ds
  · simp [DependencyGraph.get_direct_dependencies, hlk]
  · exact absurd
      (mem_all_packages.mpr (Or.inl (lookupKey_isSome_iff.mp (by rw [hlk]; rfl))))
      h

theorem collectList_closed (g : DependencyGraph) (fuel : Nat)
    (hP : ∀ pkg v a v' a', collect_deps g fuel pkg (v, a) = (v', a') →
      (g.get_all_packages.toFinset \ v.toFinset).card < fuel →
      (∃ w, v' = v ++ w) ∧ (∃ u, a' = a ++ u) ∧
        (∀ p ∈ v', p ∉ v → CollectOb g p v' a') ∧
        (g.should_filter pkg = false → pkg ∈ v')) :
    ∀ l v a v' a',
      collectList g (fun p s => collect_deps g fuel p s) (v, a) l = (v', a') →
      (g.get_all_packages.toFinset \ v.toFinset).card < fuel →
      (∃ w, v' = v ++ w) ∧ (∃ u, a' = a ++ u) ∧
        (∀ p ∈ v', p ∉ v → CollectOb g p v' a') ∧
        (∀ d ∈ l, g.should_filter d = false → d ∈ a' ∧ d ∈ v') := by
  intro l
  induction l with
  | nil =>
    intro v a v' a' h hcard
    simp only [collectList] at h
    injection h with h1 h2
    subst h1; subst h2
    refine ⟨⟨[], (List.append_nil _).symm⟩, ⟨[], (List.append_nil _).symm⟩, ?_, by simp⟩
    intro p hp hnp
    exact absurd hp hnp
  | cons dep rest ih =>
    intro v a v' a' h hcard
    simp only [collectList] at h
    by_cases hdep : g.should_filter dep = true
    · rw [if_pos hdep] at h
      obtain ⟨hw, hu, hob, hlast⟩ := ih v a v' a' h hcard
      refine ⟨hw, hu, hob, ?_⟩
      intro d hd hdfil
      rcases List.mem_cons.mp hd with rfl | hd
      · rw [hdep] at hdfil; cases hdfil
      · exact hlast d hd hdfil
    · have hdepP : ¬(g.should_filter dep = true) := hdep
      rw [Bool.not_eq_true] at hdep
      rw [if_neg hdepP] at h
      rcases hrec : collect_deps g fuel dep (v, setInsert a dep) with ⟨v2, a2⟩
      rw [hrec] at h
      obtain ⟨⟨w2, hv2⟩, ⟨u2, ha2⟩, hob2, hdep2⟩ := hP dep v (setInsert a dep) v2 a2 hrec hcard
      have hcard2 : (g.get_all_packages.toFinset \ v2.toFinset).card < fuel := by
        subst hv2
        exact Nat.lt_of_le_of_lt (sdiff_card_le_of_append w2) hcard
      obtain ⟨⟨w3, hv3⟩, ⟨u3, ha3⟩, hob3, hlast3⟩ := ih v2 a2 v' a' h hcard2
      obtain ⟨u1, ha1⟩ := setInsert_extends a dep
      have hvmono : ∀ x ∈ v2, x ∈ v' := by
        intro x hx; rw [hv3]; exact List.mem_append.mpr (Or.inl hx)
      have hamono : ∀ x ∈ a2, x ∈ a' := by
        intro x hx; rw [ha3]; exact List.mem_append.mpr (Or.inl hx)
      refine ⟨⟨w2 ++ w3, by rw [hv3, hv2, List.append_assoc]⟩,
        ⟨u1 ++ u2 ++ u3, by rw [ha3, ha2, ha1]; simp [List.append_assoc]⟩,
        ?_, ?_⟩
      · intro p hp hnp
        by_cases hp2 : p ∈ v2
        · exact collectOb_mono hvmono hamono (hob2 p hp2 hnp)
        · exact hob3 p hp hp2
      · intro d hd hdfil
        rcases List.mem_cons.mp hd with rfl | hd
        · constructor
          · exact hamono d (by rw [ha2]; exact List.mem_append.mpr (Or.inl setInsert_mem_self))
          · exact hvmono d (hdep2 hdep)
        · exact hlast3 d hd hdfil

theorem collect_deps_closed (g : DependencyGraph) :
    ∀ fuel pkg v a v' a', collect_deps g fuel pkg (v, a) = (v', a') →
      (g.get_all_packages.toFinset \ v.toFinset).card < fuel →
      (∃ w, v' = v ++ w) ∧ (∃ u, a' = a ++ u) ∧
        (∀ p ∈ v', p ∉ v → CollectOb g p v' a') ∧
        (g.should_filter pkg = false → pkg ∈ v') := by
  intro fuel
  induction fuel with
  | zero =>
    intro pkg v a v' a' _ hcard
    cases hcard
  | succ fuel ih =>
    intro pkg v a v' a' h hcard
    simp only [collect_deps] at h
    by_cases hmem : pkg ∈ v
    · rw [if_pos (by simp [hmem])] at h
      injection h with h1 h2
      subst h1; subst h2
      refine ⟨⟨[], (List.append_nil _).symm⟩, ⟨[], (List.append_nil _).symm⟩, ?_, fun _ => hmem⟩
      intro p hp hnp
      exact absurd hp hnp
    · by_cases hfil : g.should_filter pkg = true
      · rw [if_pos (by simp [hfil])] at h
        injection h with h1 h2
        subst h1; subst h2
        refine ⟨⟨[], (List.append_nil _).symm⟩, ⟨[], (List.append_nil _).symm⟩, ?_, ?_⟩
        · intro p hp hnp
          exact absurd hp hnp
        · intro hfil2
          rw [hfil] at hfil2
          cases hfil2
      · rw [if_neg (by simp [hmem, hfil])] at h
        by_cases hall : pkg ∈ g.get_all_packages
        · have hcard1 : (g.get_all_packages.toFinset \ (v ++ [pkg]).toFinset).card < fuel :=
            Nat.lt_of_lt_of_le (sdiff_card_lt_of_cons hall hmem) (Nat.lt_succ_iff.mp hcard)
          obtain ⟨⟨w, hv⟩, hu, hob, hlast⟩ :=
            collectList_closed g fuel ih (g.get_direct_dependencies pkg)
              (v ++ [pkg]) a v' a' h hcard1
          have hpkg : pkg ∈ v' := by
            rw [hv]
            exact List.mem_append.mpr (Or.inl (List.mem_append.mpr (Or.inr (by simp))))
          refine ⟨⟨pkg :: w, by rw [hv, List.append_assoc]; rfl⟩, hu, ?_, fun _ => hpkg⟩
          intro p hp hnp
          by_cases hppkg : p = pkg
          · subst hppkg
            intro d hd hdfil
            exact hlast d hd hdfil
          · refine hob p hp ?_
            intro hp1
            rcases List.mem_append.mp hp1 with hp1 | hp1
            · exact hnp hp1
            · rw [List.mem_singleton] at hp1
              exact hppkg hp1
        · have hdeps : g.get_direct_dependencies pkg = [] :=
            direct_dependencies_of_not_mem hall
          rw [hdeps] at h
          simp only [collectList] at h
          injection h with h1 h2
          subst h1; subst h2
          refine ⟨⟨[pkg], rfl⟩, ⟨[], (List.append_nil _).symm⟩, ?_, ?_⟩
          · intro p hp hnp
            rcases List.mem_append.mp hp with hp | hp
            · exact absurd hp hnp
            · rw [List.mem_singleton] at hp
              subst hp
              intro d hd hdfil
              rw [hdeps] at hd
              cases hd
          · intro _
            exact List.mem_append.mpr (Or.inr (by simp))

/-! ### Graphs reachable through the public mutation operations -/

/-- The graphs obtainable from a freshly constructed `DependencyGraph` by any
sequence of `add_dependency` calls and (completed) `build_graph_dfs` calls. -/
inductive Built : DependencyGraph → Prop
  | init (s : String) : Built (DependencyGraph.init s)
  | add {g : DependencyGraph} (p d : String) : Built g → Built (g.add_dependency p d)
  | build {g g' : DependencyGraph} {f : String → Option (List String)} {fuel : Nat}
      {p : String} {v' : List String} :
      Built g → g.build_graph_dfs f fuel p = some (g', v') → Built g'

/-- No package of a reachable graph matches the graph's own filter. -/
def NoFilteredNames (g : DependencyGraph) : Prop :=
  ∀ x ∈ g.get_all_packages, g.should_filter x = false

theorem built_noFilteredNames {g : DependencyGraph} (hg : Built g) : NoFilteredNames g := by
  induction hg with
  | init s =>
    intro x hx
    simp [DependencyGraph.get_all_packages, DependencyGraph.init, graphKeys, graphValues,
      keysL, valuesL] at hx
  | add p d hg ih =>
    intro x hx
    rename_i g
    rw [add_dependency_should_filter]
    rcases mem_all_packages_add_dependency.mp hx with hx | ⟨h1, h2, h3 | h3⟩
    · exact ih x hx
    · subst h3; exact h1
    · subst h3; exact h2
  | build hg hb ih =>
    intro x hx
    rename_i g g' f fuel p v'
    have post := buildDfsO_post f fuel g p [] [] g' v' hb
    rw [should_filter_congr post.1]
    rcases post.2.2.2.2.1 x hx with hx | hx
    · exact ih x hx
    · exact hx

theorem built_danglingFree {g : DependencyGraph} (hg : Built g) : DanglingFree g := by
  induction hg with
  | init s =>
    intro d hd
    simp [DependencyGraph.init, graphValues, valuesL] at hd
  | add p d hg ih => exact add_dependency_danglingFree ih
  | build hg hb ih =>
    rename_i g g' f fuel p v'
    exact (buildDfsO_post f fuel g p [] [] g' v' hb).2.2.2.2.2.2.1 ih

/-! ### Walking a recorded edge path through the collected sets -/

theorem chain_walk {g : DependencyGraph} {V A : List String}
    (hstep : ∀ x y, x ∈ V → y ∈ g.get_direct_dependencies x →
      g.should_filter y = false → y ∈ A ∧ y ∈ V) :
    ∀ l x z, List.Chain' (fun a b => b ∈ g.get_direct_dependencies a) (x :: l) →
      x ∈ V → (x :: l).getLast? = some z → l ≠ [] →
      (∀ y ∈ l, g.should_filter y = false) →
      z ∈ A ∧ z ∈ V := by
  intro l
  induction l with
  | nil =>
    intro x z _ _ _ hne _
    exact absurd rfl hne
  | cons y rest ih =>
    intro x z hchain hx hlast _ hfil
    obtain ⟨hxy, hchain'⟩ := List.chain'_cons.mp hchain
    obtain ⟨hyA, hyV⟩ :=
      hstep x y hx hxy (hfil y (List.mem_cons_self _ _))
    rcases hrest : rest with _ | ⟨r, rs⟩
    · subst hrest
      have : z = y := by
        simp [List.getLast?] at hlast
        exact hlast.symm
      subst this
      exact ⟨hyA, hyV⟩
    · subst hrest
      have hlast' : (y :: r :: rs).getLast? = some z := by
        rw [List.getLast?_cons_cons] at hlast
        exact hlast
      exact ih y z hchain' hyV hlast' (by simp)
        (fun w hw => hfil w (List.mem_cons_of_mem _ hw))

/-! ### Small facts about freshly initialised graphs and the root visit -/

theorem init_should_filter_empty (x : String) :
    (DependencyGraph.init "").should_filter x = false := by
  simp [DependencyGraph.init, DependencyGraph.should_filter]

theorem init_all_packages (fs : String) :
    (DependencyGraph.init fs).get_all_packages = [] := rfl

theorem build_root_visited {f : String → Option (List String)} :
    ∀ fuel (g : DependencyGraph) root v path g' v',
      buildDfsO f fuel g root v path = some (g', v') →
      g.should_filter root = false → root ∉ path → root ∈ v' := by
  intro fuel
  induction fuel with
  | zero =>
    intro g root v path g' v' hb _ _
    cases hb
  | succ fuel _ =>
    intro g root v path g' v' hb hfil hpath
    simp only [buildDfsO] at hb
    rw [if_neg (by simp [hfil] : ¬(g.should_filter root = true))] at hb
    rw [if_neg hpath] at hb
    by_cases hvis : root ∈ v
    · rw [if_pos hvis] at hb
      injection hb with h1
      injection h1 with _ h2
      subst h2
      exact hvis
    · rw [if_neg hvis] at hb
      have hmem : root ∈ v ++ [root] := List.mem_append.mpr (Or.inr (by simp))
      rcases hf : f root with _ | deps
      · rw [hf] at hb
        injection hb with h1
        injection h1 with _ h2
        subst h2
        exact hmem
      · rw [hf] at hb
        obtain ⟨post, -⟩ :=
          buildDeps_post (fun g2 p2 v2 g3 v3 hr => buildDfsO_post f fuel g2 p2 v2 _ g3 v3 hr)
            root deps g (v ++ [root]) g' v' hfil hb
        obtain ⟨w, hw⟩ := post.2.1
        rw [hw]
        exact List.mem_append.mpr (Or.inl hmem)

theorem chain_tail_mem_values (g : DependencyGraph) :
    ∀ l x, List.Chain' (fun a b => b ∈ g.get_direct_dependencies a) (x :: l) →
      ∀ y ∈ l, y ∈ graphValues g := by
  intro l
  induction l with
  | nil =>
    intro x _ y hy
    cases hy
  | cons z rest ih =>
    intro x hchain y hy
    obtain ⟨hxz, hchain'⟩ := List.chain'_cons.mp hchain
    rcases List.mem_cons.mp hy with rfl | hy
    · rcases hlk : lookupKey g.graph x with _ | ds
      · rw [DependencyGraph.get_direct_dependencies, hlk] at hxz
        cases hxz
      · rw [DependencyGraph.get_direct_dependencies, hlk] at hxz
        exact mem_valuesL_of_lookup hlk hxz
    · exact ih z hchain' y hy

theorem mem_values_of_direct {g : DependencyGraph} {x d : String}
    (h : d ∈ g.get_direct_dependencies x) : d ∈ graphValues g := by
  rcases hlk : lookupKey g.graph x with _ | ds
  · rw [DependencyGraph.get_direct_dependencies, hlk] at h
    cases h
  · rw [DependencyGraph.get_direct_dependencies, hlk] at h
    exact mem_valuesL_of_lookup hlk h

/-! ### Concrete dependency sources used in the specification's scenarios -/

/-- Source data A→B, B→C, C→A (the cycle scenario). -/
def cycleSource : String → Option (List String) := fun p =>
  if p = "A" then some ["B"]
  else if p = "B" then some ["C"]
  else if p = "C" then some ["A"]
  else some []

/-- Source data A→B, A→C, B→D, C→D (the diamond scenario). -/
def diamondSource : String → Option (List String) := fun p =>
  if p = "A" then some ["B", "C"]
  else if p = "B" then some ["D"]
  else if p = "C" then some ["D"]
  else some []

/-- Source data A→B, B→Ctest (the filtering scenario). -/
def filterSource : String → Option (List String) := fun p =>
  if p = "A" then some ["B"]
  else if p = "B" then some ["Ctest"]
  else some []

/-- Source data A→B, A→D where fetching B raises (the fetch-failure scenario). -/
def failSource : String → Option (List String) := fun p =>
  if p = "A" then some ["B", "D"]
  else if p = "D" then some []
  else none

/-- A source under which every package has no dependencies. -/
def emptySource : String → Option (List String) := fun _ => some []

/-! ### The claims -/

/-- C1: the reverse-dependency query returns exactly the set of packages `q`
such that `p` is a member of `q`'s direct dependency set.  The query is
modelled from specification §4.3 because `get_reverse_dependencies` is
called by `src/main.py` but absent from `src/dependency_graph.py`; on a
graph whose key list is duplicate-free (every graph the engine builds is),
membership in its result coincides with membership of `p` in the direct
dependency set of `q`. -/
theorem reverse_dependencies_exact (g : DependencyGraph) (hnd : (graphKeys g).Nodup)
    (p q : String) :
    q ∈ g.get_reverse_dependencies p ↔ p ∈ g.get_direct_dependencies q := by
  constructor
  · intro h
    obtain ⟨e, he, rfl⟩ := List.mem_map.mp h
    obtain ⟨hmem, hp⟩ := List.mem_filter.mp he
    rw [decide_eq_true_eq] at hp
    obtain ⟨a, ds⟩ := e
    rw [DependencyGraph.get_direct_dependencies,
      mem_lookupKey_of_nodup hnd hmem]
    exact hp
  · intro h
    rcases hlk : lookupKey g.graph q with _ | ds
    · rw [DependencyGraph.get_direct_dependencies, hlk] at h
      cases h
    · rw [DependencyGraph.get_direct_dependencies, hlk] at h
      refine List.mem_map.mpr ⟨(q, ds), ?_, rfl⟩
      exact List.mem_filter.mpr ⟨lookupKey_mem hlk, decide_eq_true h⟩

/-- Witness for C1 on the graph {A ↦ {B}, B ↦ ∅}. -/
theorem reverse_dependencies_exact_witness :
    "A" ∈ ((DependencyGraph.init "").add_dependency "A" "B").get_reverse_dependencies "B" ↔
      "B" ∈ ((DependencyGraph.init "").add_dependency "A" "B").get_direct_dependencies "A" :=
  reverse_dependencies_exact ((DependencyGraph.init "").add_dependency "A" "B")
    (by decide) "B" "A"

/-- C2 counterexample: building with no filter from root A over a source
whose fetch of A succeeds returning the empty mapping completes, yet
`get_all_packages()` does not contain the root, contradicting
`allPackages() ⊇ {root}`. -/
theorem all_packages_superset_counterexample :
    ((DependencyGraph.init "").build_graph_dfs emptySource 10 "A").map
      (fun gv => decide ("A" ∈ gv.1.get_all_packages)) = some false := by decide

/-- C2 as amended: for every completed no-filter build, every package name
returned by any fetch call is in `get_all_packages()` (the returned visited
set is exactly the set of packages fetched during the build), and the root
is in `get_all_packages()` provided its own fetch succeeded and returned at
least one name. -/
theorem all_packages_superset_amended (f : String → Option (List String)) (fuel : Nat)
    (root : String) (g' : DependencyGraph) (v' : List String)
    (hb : (DependencyGraph.init "").build_graph_dfs f fuel root = some (g', v')) :
    (∀ q ∈ v', ∀ deps, f q = some deps → ∀ d ∈ deps, d ∈ g'.get_all_packages) ∧
      (∀ deps, f root = some deps → deps ≠ [] → root ∈ g'.get_all_packages) := by
  have post := buildDfsO_post f fuel (DependencyGraph.init "") root [] [] g' v' hb
  constructor
  · intro q hq deps hdeps d hd
    exact (post.2.2.2.2.2.2.2 q hq (by simp) deps hdeps d hd
      (init_should_filter_empty d)).1
  · intro deps hdeps hne
    have hroot : root ∈ v' :=
      build_root_visited fuel (DependencyGraph.init "") root [] [] g' v' hb
        (init_should_filter_empty root) (by simp)
    rcases deps with _ | ⟨d, rest⟩
    · exact absurd rfl hne
    · exact mem_all_packages.mpr (Or.inl
        (post.2.2.2.2.2.2.2 root hroot (by simp) (d :: rest) hdeps d
          (List.mem_cons_self _ _) (init_should_filter_empty d)).2)

/-- Witness for the amended C2 on the source A→B: both B (returned by the
fetch of A) and the root A end up in `get_all_packages()`. -/
theorem all_packages_superset_amended_witness :
    "B" ∈ (DependencyGraph.mk "" [("A", ["B"]), ("B", [])] []).get_all_packages ∧
      "A" ∈ (DependencyGraph.mk "" [("A", ["B"]), ("B", [])] []).get_all_packages := by
  have hb : (DependencyGraph.init "").build_graph_dfs
      (fun p => if p = "A" then some ["B"] else some []) 10 "A" =
      some (DependencyGraph.mk "" [("A", ["B"]), ("B", [])] [], ["A", "B"]) := by decide
  have h := all_packages_superset_amended
    (fun p => if p = "A" then some ["B"] else some []) 10 "A" _ _ hb
  exact ⟨h.1 "A" (by decide) ["B"] rfl "B" (by decide),
    h.2 ["B"] rfl (by decide)⟩

/-- C3: if the source raises on one package `b`, the build behaves exactly
as if `b` had reported an empty dependency mapping: no exception escapes
(the embedded build always returns a value), the failing package gets no
outgoing edges beyond those already present, every other branch is
traversed identically, and all previously added edges survive — for every
source, every failing package, every starting state. -/
theorem fetch_failure_swallowed (f : String → Option (List String)) (b : String)
    (hb : f b = none) (fuel : Nat) (g : DependencyGraph) (package : String)
    (v path : List String) :
    buildDfsO f fuel g package v path =
      buildDfsO (fun q => if q = b then some [] else f q) fuel g package v path :=
  buildDfsO_fail_eq f b hb fuel g package v path

/-- Witness for C3 on the mid-tree failure scenario A→B (B raises), A→D. -/
theorem fetch_failure_swallowed_witness :
    buildDfsO failSource 10 (DependencyGraph.init "") "A" [] [] =
      buildDfsO (fun q => if q = "B" then some [] else failSource q) 10
        (DependencyGraph.init "") "A" [] [] :=
  fetch_failure_swallowed failSource "B" rfl 10 (DependencyGraph.init "") "A" [] []

/-- C4: over the source A→B, B→C, C→A, building from A with no filter
records exactly the cycle [A, B, C, A] and `has_cycles()` is true. -/
theorem cycle_detection_records_cycle :
    ((DependencyGraph.init "").build_graph_dfs cycleSource 10 "A").map
      (fun gv => (gv.1.has_cycles, gv.1.get_cycles)) =
      some (true, [["A", "B", "C", "A"]]) := by decide

/-- C5: in every completed build over a graph initialised with a non-empty
filter substring, every package appearing in the graph (as key or value,
i.e. in `get_all_packages`) and every package ever fetched (the returned
visited set) fails the filter test — a matching package is never added in
either role and never has its dependencies fetched; and in particular, with
filter "test" over A→B, B→Ctest, building from A yields exactly {A, B} with
Ctest absent from B's dependency set. -/
theorem filtering_excludes (f : String → Option (List String)) (fs : String)
    (hfs : fs ≠ "") (fuel : Nat) (root : String) (g' : DependencyGraph)
    (v' : List String)
    (hb : (DependencyGraph.init fs).build_graph_dfs f fuel root = some (g', v')) :
    (∀ x ∈ g'.get_all_packages, (DependencyGraph.init fs).should_filter x = false) ∧
      (∀ x ∈ v', (DependencyGraph.init fs).should_filter x = false) ∧
      (∃ gt vt,
        (DependencyGraph.init "test").build_graph_dfs filterSource 10 "A" = some (gt, vt) ∧
          (∀ x, x ∈ gt.get_all_packages ↔ x = "A" ∨ x = "B") ∧
          "Ctest" ∉ gt.get_direct_dependencies "B") := by
  have post := buildDfsO_post f fuel (DependencyGraph.init fs) root [] [] g' v' hb
  refine ⟨?_, ?_, ?_⟩
  · intro x hx
    rcases post.2.2.2.2.1 x hx with hx | hx
    · rw [init_all_packages] at hx
      cases hx
    · exact hx
  · intro x hx
    rcases post.2.2.2.2.2.1 x hx with hx | hx
    · cases hx
    · exact hx
  · refine ⟨DependencyGraph.mk "test" [("A", ["B"]), ("B", [])] [], ["A", "B"],
      by decide, ?_, by decide⟩
    intro x
    have hP : (DependencyGraph.mk "test" [("A", ["B"]), ("B", [])]
        []).get_all_packages = ["A", "B", "B"] := rfl
    rw [hP]
    simp only [List.mem_cons, List.not_mem_nil, or_false]
    tauto

/-- Witness for C5 on the filter "test" scenario: the two packages that do
appear in the built graph indeed fail the filter test. -/
theorem filtering_excludes_witness :
    (DependencyGraph.init "test").should_filter "A" = false ∧
      (DependencyGraph.init "test").should_filter "B" = false := by
  have hb : (DependencyGraph.init "test").build_graph_dfs filterSource 10 "A" =
      some (DependencyGraph.mk "test" [("A", ["B"]), ("B", [])] [], ["A", "B"]) := by
    decide
  have h := filtering_excludes filterSource "test" (by decide) 10 "A" _ _ hb
  exact ⟨h.1 "A" (by decide), h.1 "B" (by decide)⟩

/-- C6: the diamond A→B, A→C, B→D, C→D built from A with no filter records
no cycle, and the transitive dependencies of A are exactly {B, C, D}. -/
theorem diamond_is_not_a_cycle :
    ∃ g' v',
      (DependencyGraph.init "").build_graph_dfs diamondSource 10 "A" = some (g', v') ∧
        g'.has_cycles = false ∧
        (∀ x, x ∈ g'.get_all_dependencies "A" ↔ x = "B" ∨ x = "C" ∨ x = "D") := by
  refine ⟨DependencyGraph.mk "" [("A", ["B", "C"]), ("B", ["D"]), ("D", []), ("C", ["D"])] [],
    ["A", "B", "D", "C"], by decide, by decide, ?_⟩
  intro x
  have hg : (DependencyGraph.mk ""
      [("A", ["B", "C"]), ("B", ["D"]), ("D", []), ("C", ["D"])] []).get_all_dependencies
      "A" = ["B", "D", "C"] := by decide
  rw [hg]
  simp only [List.mem_cons, List.not_mem_nil, or_false]
  tauto

/-- C7: over any finite universe `U` of package identifiers containing the
root and closed under the names any fetch returns, the build terminates —
with fuel `|U| + 1` the embedded recursion completes (never exhausts its
depth budget), because each recursive call either hits the filter, the
recursion-path check, the visited check, or makes first-time progress into
an unvisited package; and the recursion-path check precedes the
global-visited check: on a package lying on the current path that is also
already globally visited, the cycle is recorded (second conjunct, where "Z"
is both on the path and visited, and the cycle branch wins). -/
theorem traversal_terminates (f : String → Option (List String)) (U : List String)
    (g : DependencyGraph) (root : String) (hroot : root ∈ U)
    (hclosed : ∀ p ∈ U, ∀ deps, f p = some deps → ∀ d ∈ deps, d ∈ U) :
    (g.build_graph_dfs f (U.length + 1) root).isSome ∧
      buildDfsO emptySource 1 (DependencyGraph.init "") "Z" ["Z"] ["Z", "Y"] =
        some (DependencyGraph.mk "" [] [["Z", "Y", "Z"]], ["Z"]) := by
  constructor
  · rw [DependencyGraph.build_graph_dfs]
    refine buildDfsO_isSome hclosed (U.length + 1) root g [] [] hroot ?_
    calc (U.toFinset \ ([] : List String).toFinset).card
        = U.toFinset.card := by simp
      _ ≤ U.length := List.toFinset_card_le U
      _ < U.length + 1 := Nat.lt_succ_self _
  · decide

/-- Witness for C7 with the one-package universe {A} and a source reporting
no dependencies. -/
theorem traversal_terminates_witness :
    ((DependencyGraph.init "").build_graph_dfs emptySource 2 "A").isSome ∧
      buildDfsO emptySource 1 (DependencyGraph.init "") "Z" ["Z"] ["Z", "Y"] =
        some (DependencyGraph.mk "" [] [["Z", "Y", "Z"]], ["Z"]) :=
  traversal_terminates emptySource ["A"] (DependencyGraph.init "") "A" (by decide)
    (by
      intro p hp deps hdeps d hd
      simp only [emptySource, Option.some.injEq] at hdeps
      subst hdeps
      cases hd)

/-- C8: `get_all_dependencies` is side-effect-free and idempotent on the
completed graph — its state transition leaves the graph (mapping, filter and
cycle list) unchanged, a second call returns the same result — and it
returns the empty set whenever the package is not a key of the graph. -/
theorem get_all_dependencies_pure (g : DependencyGraph) (package : String) :
    (g.get_all_dependencies_run package).2 = g ∧
      ((g.get_all_dependencies_run package).2.get_all_dependencies_run package).1 =
        (g.get_all_dependencies_run package).1 ∧
      (package ∉ graphKeys g → (g.get_all_dependencies_run package).1 = []) := by
  refine ⟨rfl, rfl, ?_⟩
  intro h
  show g.get_all_dependencies package = []
  have hns : ¬((lookupKey g.graph package).isSome = true) := fun hsome =>
    h (lookupKey_isSome_iff.mp hsome)
  rw [DependencyGraph.get_all_dependencies, if_neg hns]

/-- Witness for C8 on an empty graph and an absent package. -/
theorem get_all_dependencies_pure_witness :
    ((DependencyGraph.init "").get_all_dependencies_run "A").2 = DependencyGraph.init "" ∧
      (((DependencyGraph.init "").get_all_dependencies_run "A").2.get_all_dependencies_run
        "A").1 = ((DependencyGraph.init "").get_all_dependencies_run "A").1 ∧
      ((DependencyGraph.init "").get_all_dependencies_run "A").1 = [] := by
  have h := get_all_dependencies_pure (DependencyGraph.init "") "A"
  exact ⟨h.1, h.2.1, h.2.2 (by decide)⟩

/-- C9: after any sequence of `add_dependency` and `build_graph_dfs`
operations starting from a fresh graph, every package appearing in some
dependency set is itself a key of the graph mapping (owning at least an
empty dependency set) — the graph has no dangling nodes. -/
theorem no_dangling_nodes {g : DependencyGraph} (hg : Built g) :
    ∀ d ∈ graphValues g, d ∈ graphKeys g :=
  built_danglingFree hg

/-- Witness for C9 after one `add_dependency` call. -/
theorem no_dangling_nodes_witness :
    "B" ∈ graphKeys ((DependencyGraph.init "").add_dependency "A" "B") :=
  no_dangling_nodes (Built.add "A" "B" (Built.init "")) "B" (by decide)

/-- C10 (implicit): in a completed graph containing an edge path of length
at least one from `p` back to `p`, `get_all_dependencies p` contains `p`
itself. -/
theorem package_on_cycle_depends_on_itself {g : DependencyGraph} {p : String}
    {l : List String} (hg : Built g)
    (hchain : List.Chain' (fun a b => b ∈ g.get_direct_dependencies a) l)
    (hhead : l.head? = some p) (hlast : l.getLast? = some p) (hlen : 2 ≤ l.length) :
    p ∈ g.get_all_dependencies p := by
  rcases l with _ | ⟨x, t⟩
  · cases hhead
  · simp only [List.head?_cons, Option.some.injEq] at hhead
    subst hhead
    rcases t with _ | ⟨y, t'⟩
    · simp at hlen
    · obtain ⟨hpy, hchain'⟩ := List.chain'_cons.mp hchain
      have hkey : (lookupKey g.graph x).isSome := by
        rcases hlk : lookupKey g.graph x with _ | ds
        · rw [DependencyGraph.get_direct_dependencies, hlk] at hpy
          cases hpy
        · rfl
      have hnf := built_noFilteredNames hg
      have hpall : x ∈ g.get_all_packages :=
        mem_all_packages.mpr (Or.inl (lookupKey_isSome_iff.mp hkey))
      have hpfil : g.should_filter x = false := hnf x hpall
      have htailfil : ∀ w ∈ y :: t', g.should_filter w = false := by
        intro w hw
        exact hnf w (mem_all_packages.mpr (Or.inr
          (chain_tail_mem_values g (y :: t') x hchain w hw)))
      rcases hcol : collect_deps g (g.get_all_packages.length + 1) x ([], []) with ⟨v', a'⟩
      have hcard : (g.get_all_packages.toFinset \ ([] : List String).toFinset).card <
          g.get_all_packages.length + 1 :=
        calc (g.get_all_packages.toFinset \ ([] : List String).toFinset).card
            = g.get_all_packages.toFinset.card := by simp
          _ ≤ g.get_all_packages.length := List.toFinset_card_le g.get_all_packages
          _ < g.get_all_packages.length + 1 := Nat.lt_succ_self _
      obtain ⟨-, -, hob, hpin⟩ := collect_deps_closed g _ x [] [] v' a' hcol hcard
      have hstep : ∀ q d, q ∈ v' → d ∈ g.get_direct_dependencies q →
          g.should_filter d = false → d ∈ a' ∧ d ∈ v' := by
        intro q d hq hd hdf
        exact hob q hq (by simp) d hd hdf
      obtain ⟨hpa, -⟩ :=
        chain_walk hstep (y :: t') x x hchain (hpin hpfil) hlast (by simp) htailfil
      rw [DependencyGraph.get_all_dependencies, if_pos hkey, hcol]
      exact hpa

/-- Witness for C10 on the two-package cycle A→B→A assembled by two
`add_dependency` calls. -/
theorem package_on_cycle_depends_on_itself_witness :
    "A" ∈ (((DependencyGraph.init "").add_dependency "A" "B").add_dependency
      "B" "A").get_all_dependencies "A" :=
  @package_on_cycle_depends_on_itself
    (((DependencyGraph.init "").add_dependency "A" "B").add_dependency "B" "A")
    "A" ["A", "B", "A"]
    (Built.add "B" "A" (Built.add "A" "B" (Built.init "")))
    (List.chain'_cons.mpr ⟨by decide,
      List.chain'_cons.mpr ⟨by decide, List.chain'_singleton "A"⟩⟩)
    rfl rfl (by decide)
